import Mathlib

set_option maxRecDepth 20000

/-
Verification of the markdown page generator (docs/generatemd4.py).

Strings are modelled as `List Char`.  Python character classes are modelled
over ASCII: `\s` / `str.strip` use the six ASCII whitespace characters,
`\w` is letters, digits and underscore, and `re.IGNORECASE` lowers ASCII
letters only, matching the behaviour of the generator on its ASCII inputs.
-/

namespace GenMd

/-- ASCII model of the Python whitespace class `\s` (also used by `str.strip`). -/
def pySpace (c : Char) : Bool :=
  c = ' ' || c = '\t' || c = '\n' || c = '\r' || c = '\x0b' || c = '\x0c'

/-- Model of Python `str.rstrip()`. -/
def pyRstrip (s : List Char) : List Char :=
  (s.reverse.dropWhile pySpace).reverse

/-- Model of Python `str.lstrip()`; also used for a `\s*` that is followed by a
pattern starting with a non-whitespace character (where the regex engine has a
unique viable amount of whitespace to consume). -/
def pyLstrip (s : List Char) : List Char :=
  s.dropWhile pySpace

/-- Model of Python `str.strip()`. -/
def pyStrip (s : List Char) : List Char :=
  pyLstrip (pyRstrip s)

/-- Model of the ASCII word-character class `\w` used by `\b` boundaries. -/
def pyWord (c : Char) : Bool :=
  c.isAlphanum || c = '_'

/-- Case-insensitive literal match at the head of a string: `pat` is given in
lower case; on success the remainder of the string is returned.  Models a
literal inside a regex compiled with `re.IGNORECASE`. -/
def ciPref : List Char → List Char → Option (List Char)
  | [], s => some s
  | _ :: _, [] => none
  | p :: ps, c :: cs => if p = c.toLower then ciPref ps cs else none

/-- Case-sensitive literal match at the head of a string. -/
def litPref (pat s : List Char) : Option (List Char) :=
  if pat.isPrefixOf s then some (s.drop pat.length) else none

/-- Does a case-insensitive occurrence of `pat` (given lower case) start at any
position of the string? -/
def hasOccCI (pat : List Char) : List Char → Bool
  | [] => pat.isEmpty
  | c :: cs => (ciPref pat (c :: cs)).isSome || hasOccCI pat cs

/-- Number of positions at which the literal `pat` occurs in the string. -/
def occursCount (pat : List Char) : List Char → Nat
  | [] => 0
  | c :: cs => (if pat.isPrefixOf (c :: cs) then 1 else 0) + occursCount pat cs

/-
Embedding of `EU_BLOCK_REMOVE_RE` (generatemd4.py lines 162-181):

    (?:\n{0,2}(?:---\s*\n{0,2})?)?                 # optional markdown hr before
    (?:\s*<hr\b[^>]*>\s*)?                        # optional html hr before
    \s*
    (?:<!--\s*EU_FUNDING_FOOTER\s*-->.*?)(?=\Z)    # marker-based footer at end
    |  ... <table\b.*?eu-funded\.jpg.*?</table>\s*(?=\Z)
    |  ... <div\b.*?eu-funded\.jpg.*?</div>\s*(?=\Z)

with flags IGNORECASE | DOTALL | VERBOSE.  Every alternative is anchored at
the end of the subject by `(?=\Z)` (for the table/div forms the trailing
`\s*(?=\Z)` forces everything after the closing tag to be whitespace), so a
match starting at position `p` always consumes the whole suffix from `p`.
`euMatch x` decides whether the pattern matches the entire string `x`; the
optional prefixes are compiled as follows, using that the three cores all
start with `<` (not whitespace), so every `\s*` adjacent to them consumes a
uniquely determined run:
  - with no `---`: the prefix `\n{0,2} (\s* <hr[^>]*> \s*)? \s*` is
    whitespace, then optionally an `<hr>` tag followed by whitespace;
  - with `---`: at most two newline characters, the literal `---`, then
    whitespace, optionally an `<hr>` tag, and whitespace.
-/

/-- Model of `[^>]*>`: drop characters up to and including the first `>`. -/
def consumeAttrs : List Char → Option (List Char)
  | [] => none
  | c :: cs => if c = '>' then some cs else consumeAttrs cs

/-- Model of a `\b` boundary after a word character: the next character (if
any) is not a word character. -/
def wordBreakAt : List Char → Bool
  | [] => true
  | c :: _ => !(pyWord c)

/-- Remainder after the first case-insensitive occurrence of `pat`, scanning
left to right (the viable choice for a lazy `.*?` before `pat`). -/
def findCI (pat : List Char) : List Char → Option (List Char)
  | [] => ciPref pat []
  | c :: cs =>
    match ciPref pat (c :: cs) with
    | some r => some r
    | none => findCI pat cs

/-- Is there an occurrence of `pat` after which the rest of the string is all
whitespace?  Models `.*?pat\s*(?=\Z)` applied to the whole remaining input. -/
def closeScan (pat : List Char) : List Char → Bool
  | [] => false
  | c :: cs =>
    (match ciPref pat (c :: cs) with
     | some r => r.all pySpace
     | none => false) || closeScan pat cs

/-- Core of the marker alternative: `<!--\s*EU_FUNDING_FOOTER\s*-->.*?(?=\Z)`
(the lazy `.*?` always extends to the end under DOTALL, so it imposes nothing). -/
def core1 (x : List Char) : Bool :=
  match ciPref ("<!--".toList) x with
  | none => false
  | some r =>
    match ciPref ("eu_funding_footer".toList) (pyLstrip r) with
    | none => false
    | some r2 => (ciPref ("-->".toList) (pyLstrip r2)).isSome

/-- Core of the old table alternative: `<table\b.*?eu-funded\.jpg.*?</table>\s*(?=\Z)`. -/
def core2 (x : List Char) : Bool :=
  match ciPref ("<table".toList) x with
  | none => false
  | some r =>
    wordBreakAt r &&
      (match findCI ("eu-funded.jpg".toList) r with
       | none => false
       | some r2 => closeScan ("</table>".toList) r2)

/-- Core of the older div alternative: `<div\b.*?eu-funded\.jpg.*?</div>\s*(?=\Z)`. -/
def core3 (x : List Char) : Bool :=
  match ciPref ("<div".toList) x with
  | none => false
  | some r =>
    wordBreakAt r &&
      (match findCI ("eu-funded.jpg".toList) r with
       | none => false
       | some r2 => closeScan ("</div>".toList) r2)

/-- One of the three footer cores starts here. -/
def coreStart (x : List Char) : Bool :=
  core1 x || core2 x || core3 x

/-- An `<hr\b[^>]*>` tag starts here, followed by whitespace and then a core. -/
def hrAfter (x : List Char) : Bool :=
  match ciPref ("<hr".toList) x with
  | none => false
  | some r =>
    wordBreakAt r &&
      (match consumeAttrs r with
       | none => false
       | some r2 => coreStart (pyLstrip r2))

/-- Whitespace, then optionally an `<hr>` tag and whitespace, then a core. -/
def wsHrCore (x : List Char) : Bool :=
  coreStart (pyLstrip x) || hrAfter (pyLstrip x)

/-- The literal `---` (of the `(?:---\s*\n{0,2})?` option; case play no role
on punctuation, so the case-insensitive head matcher is used uniformly), then
whitespace, optionally an `<hr>` tag, whitespace, and a core. -/
def dashPart (x : List Char) : Bool :=
  match ciPref ("---".toList) x with
  | some r => wsHrCore r
  | none => false

/-- The `\n{0,2}` that may precede the `---` option: one or two literal
newlines, then `dashPart`. -/
def nlDash (x : List Char) : Bool :=
  match x with
  | c :: r =>
    (c = '\n') &&
      (dashPart r ||
        (match r with
         | c2 :: r2 => (c2 = '\n') && dashPart r2
         | [] => false))
  | [] => false

/-- `EU_BLOCK_REMOVE_RE` matches the whole string `x`. -/
def euMatch (x : List Char) : Bool :=
  wsHrCore x || dashPart x || nlDash x

/-- Model of `re.sub(EU_BLOCK_REMOVE_RE, "", body)`: since every match of the
pattern extends to the end of the subject, the substitution keeps exactly the
prefix before the leftmost position at which the pattern matches. -/
def subEu : List Char → List Char
  | [] => []
  | c :: cs => if euMatch (c :: cs) then [] else c :: subEu cs

/-- The marker line `EU_BLOCK_MARKER` (generatemd4.py line 132). -/
def EU_BLOCK_MARKER : List Char := "<!-- EU_FUNDING_FOOTER -->".toList

/-- Contents of the raw triple-quoted block literal (generatemd4.py lines
134-157), before the `.strip() + "\n"` is applied. -/
def euBlockSrc : String :=
  "\n<!-- EU_FUNDING_FOOTER -->\n<hr style=\"margin:0.4rem 0;\">\n\n<div style=\"\n  display:flex;\n  align-items:center;\n  gap:0.75rem;\n  font-size:0.6rem;\n  line-height:1.35;\n\">\n  <div style=\"flex:0 0 160px; text-align:center;\">\n    <img src='\x7b\x7b \"/assets/images/eu-funded.jpg\" | relative_url \x7d\x7d'\n         alt=\"Co-funded by the European Union\"\n         style=\"max-width:160px; height:auto;\">\n  </div>\n  <div style=\"flex:1; text-align:justify; hyphens:auto;\">\n    This project is co-funded by the European Union. However, the views and opinions\n    expressed are solely those of the author(s) and do not necessarily reflect those\n    of the European Union or the National Agency DAAD. Neither the European Union nor\n    the granting authority can be held responsible for them.\n  </div>\n</div>\n"

/-- `EU_FUNDING_BLOCK` (generatemd4.py line 157): the raw block stripped, plus
a final newline. -/
def EU_FUNDING_BLOCK : List Char :=
  pyStrip euBlockSrc.toList ++ [ '\n' ]

/-- The two newlines inserted before the block (generatemd4.py line 198). -/
def nl2 : List Char := [ '\n', '\n' ]

/-- Embedding of `ensure_eu_block_at_end` (generatemd4.py lines 185-199). -/
def ensure_eu_block_at_end (md_body : List Char) : List Char :=
  let body := pyRstrip md_body
  let body2 := pyRstrip (subEu body)
  body2 ++ nl2 ++ EU_FUNDING_BLOCK

/-
Embedding of `FRONTMATTER_RE = re.compile(r"\A---\s*\n.*?\n---\s*\n", re.DOTALL)`
(generatemd4.py line 90) and `split_frontmatter` (lines 92-100).  The pattern
is anchored at the start; `matchFM` returns the length of the match when the
text begins with a front-matter block.  Backtracking order of the engine:
the opening `\s*` is greedy (longest whitespace run whose next character is a
newline, retried shorter on failure), the `.*?` is lazy (earliest closing
`\n---\s*\n`), and the closing `\s*` is greedy. -/

/-- Index of the last newline in a list, if any. -/
def lastNl : List Char → Option Nat
  | [] => none
  | c :: cs =>
    match lastNl cs with
    | some i => some (i + 1)
    | none => if c = '\n' then some 0 else none

/-- Number of characters consumed by a greedy `\s*\n` at the head of the
string: whitespace up to and including the last newline of the leading
whitespace run. -/
def greedyWsNl (r : List Char) : Option Nat :=
  (lastNl (r.takeWhile pySpace)).map (· + 1)

/-- Length of a `\n---\s*\n` closer starting exactly here. -/
def closerLen (l : List Char) : Option Nat :=
  match l with
  | '\n' :: r1 =>
    match litPref ("---".toList) r1 with
    | some r2 => (greedyWsNl r2).map (fun m => 4 + m)
    | none => none
  | _ => none

/-- Lazy scan for the earliest `\n---\s*\n` closer; returns offset plus closer
length, i.e. the number of characters from here through the closer. -/
def scanCloser : List Char → Option Nat
  | [] => none
  | c :: cs =>
    match closerLen (c :: cs) with
    | some m => some m
    | none => (scanCloser cs).map (· + 1)

/-- Ascending indices of newline characters in a list. -/
def nlIdxAsc : List Char → List Nat
  | [] => []
  | c :: cs => (if c = '\n' then [0] else []) ++ (nlIdxAsc cs).map (· + 1)

/-- First successful value of `f` over a candidate list. -/
def firstSome (f : Nat → Option Nat) : List Nat → Option Nat
  | [] => none
  | j :: js =>
    match f j with
    | some v => some v
    | none => firstSome f js

/-- Length of the front-matter match of `FRONTMATTER_RE` at the start of `t`,
if any: `---`, then (greedy, so candidates descending) whitespace ending in a
newline, then the lazily-earliest `\n---\s*\n` closer. -/
def matchFM (t : List Char) : Option Nat :=
  match litPref ("---".toList) t with
  | none => none
  | some r =>
    firstSome
      (fun j => (scanCloser (r.drop (j + 1))).map (fun m => 3 + (j + 1) + m))
      ((nlIdxAsc (r.takeWhile pySpace)).reverse)

/-- Embedding of `split_frontmatter` (generatemd4.py lines 92-100). -/
def split_frontmatter (md_text : List Char) : List Char × List Char :=
  match matchFM md_text with
  | some n => (md_text.take n, md_text.drop n)
  | none => ([], md_text)

/-- Embedding of `upsert_markdown_file` (generatemd4.py lines 102-122).  The
filesystem is modelled by the optional current content of the target path;
the result is the content written and the returned boolean. -/
def upsert_markdown_file (existing : Option (List Char))
    (new_frontmatter_block new_body_stub : List Char) : List Char × Bool :=
  match existing with
  | some old =>
    (new_frontmatter_block ++ ensure_eu_block_at_end (split_frontmatter old).2, true)
  | none =>
    (new_frontmatter_block ++ ensure_eu_block_at_end new_body_stub, true)

/-
Value normalizer (generatemd4.py lines 34-66).  The generator reads every
spreadsheet cell as a string (`pd.read_excel(..., dtype=str).fillna("")`), so
the helpers are modelled on string values; `pd.isna` is `False` on strings and
the `None` case does not arise for cell values. -/

/-- Embedding of `is_missing` (lines 34-44) on string values: blank or a
case-insensitive `nan` after stripping. -/
def is_missing (s : List Char) : Bool :=
  let t := pyStrip s
  t.isEmpty || t.map Char.toLower = "nan".toList

/-- Embedding of `clean_str` (lines 47-48) on string values. -/
def clean_str (s default : List Char) : List Char :=
  if is_missing s then default else pyStrip s

/-- Digit run with Python underscore grouping (an underscore must sit between
two digits); returns the digits collected and the rest of the input. -/
def digitsU : List Char → List Char × List Char
  | [] => ([], [])
  | c :: '_' :: d :: r =>
    if c.isDigit then
      if d.isDigit then
        let p := digitsU (d :: r)
        (c :: p.1, p.2)
      else ([c], '_' :: d :: r)
    else ([], c :: '_' :: d :: r)
  | c :: cs =>
    if c.isDigit then
      let p := digitsU cs
      (c :: p.1, p.2)
    else ([], c :: cs)

/-- Numeric value of an ASCII digit string. -/
def natOfDigits (ds : List Char) : Nat :=
  ds.foldl (fun a c => a * 10 + (c.toNat - 48)) 0

/-- Mantissa of a Python float literal: `digits [. digits?] | . digits`;
returns integer digits, fraction digits, and the rest. -/
def parseMantissa (s : List Char) : Option (List Char × List Char × List Char) :=
  let p := digitsU s
  match p.1, p.2 with
  | [], '.' :: r2 =>
    let q := digitsU r2
    if q.1.isEmpty then none else some ([], q.1, q.2)
  | [], _ => none
  | _ :: _, '.' :: r2 =>
    let q := digitsU r2
    some (p.1, q.1, q.2)
  | _ :: _, _ => some (p.1, [], p.2)

/-- Exponent part of a Python float literal: `[eE][+-]?digits`, defaulting to
zero when absent (failure only when an `e` is present but malformed). -/
def parseExp (s : List Char) : Option (Int × List Char) :=
  match s with
  | c :: r =>
    if c = 'e' || c = 'E' then
      let sr : Bool × List Char :=
        match r with
        | '+' :: rr => (false, rr)
        | '-' :: rr => (true, rr)
        | _ => (false, r)
      let q := digitsU sr.2
      if q.1.isEmpty then none
      else some ((if sr.1 then -(natOfDigits q.1 : Int) else (natOfDigits q.1 : Int)), q.2)
    else some (0, s)
  | [] => some (0, [])

/-- Value of `int(float(s))` for an already-stripped string `s`, on the exact
decimal reading of the literal, truncated toward zero.  IEEE-754 rounding and
overflow of the intermediate `float` are abstracted away (they only differ
beyond 2^53); the `inf`/`nan` spellings are failures, as `int()` raises on
them. -/
def pyFloatTrunc (s : List Char) : Option Int :=
  let sgn : Bool × List Char :=
    match s with
    | '+' :: r => (false, r)
    | '-' :: r => (true, r)
    | _ => (false, s)
  match parseMantissa sgn.2 with
  | none => none
  | some (ip, fp, r1) =>
    match parseExp r1 with
    | none => none
    | some (e, r2) =>
      if r2.isEmpty then
        let digs := natOfDigits (ip ++ fp)
        let shift : Int := e - (fp.length : Int)
        let mag : Nat :=
          if 0 ≤ shift then digs * 10 ^ shift.toNat else digs / 10 ^ (-shift).toNat
        some (if sgn.1 then -(mag : Int) else (mag : Int))
      else none

/-- Embedding of `as_int` (generatemd4.py lines 60-66) on string values. -/
def as_int (s : List Char) (default : Int) : Int :=
  if is_missing s then default
  else
    match pyFloatTrunc (pyStrip s) with
    | some n => n
    | none => default

/-- Embedding of `normalize_nav_title` (generatemd4.py lines 69-80) on string
values (the generator only passes strings at its call sites). -/
def normalize_nav_title (title : List Char) : List Char :=
  if title.isEmpty then title
  else
    let t := pyStrip title
    if t = "00 Welcome".toList then "Welcome".toList else t

/-- Values that can appear in the front-matter mapping. -/
inductive FmVal
  | s (v : List Char)
  | i (n : Int)
  | b (v : Bool)
deriving DecidableEq

/-- First-match association-list lookup, modelling a Python dict (whose keys
are unique). -/
def lookupA : List (List Char × List Char) → List Char → Option (List Char)
  | [], _ => none
  | kv :: rest, key => if kv.1 = key then some kv.2 else lookupA rest key

/-- Model of Python `dict.get(key, default)`. -/
def pyGetD (d : List (List Char × List Char)) (key default : List Char) : List Char :=
  (lookupA d key).getD default

def keyTitle : List Char := "title".toList
def keyLayout : List Char := "layout".toList
def keyNavOrder : List Char := "nav_order".toList
def keyHasChildren : List Char := "has_children".toList
def keyHasToc : List Char := "has_toc".toList
def keyParent : List Char := "parent".toList
def keyGrandParent : List Char := "grand_parent".toList

/-- Embedding of `build_frontmatter` (generatemd4.py lines 205-238).  The
ordered dict is modelled as a list of key/value pairs in insertion order. -/
def build_frontmatter (title layout : List Char) (nav_order : Int)
    (has_children : Bool) (parent_id : List Char)
    (title_by_page_id parent_by_page_id : List (List Char × List Char)) :
    List (List Char × FmVal) :=
  [(keyTitle, FmVal.s title), (keyLayout, FmVal.s layout),
   (keyNavOrder, FmVal.i nav_order), (keyHasChildren, FmVal.b has_children)]
  ++ (if has_children then [(keyHasToc, FmVal.b false)] else [])
  ++ (if parent_id.isEmpty then []
      else
        let parent_title := normalize_nav_title (pyGetD title_by_page_id parent_id [])
        if parent_title.isEmpty then []
        else
          (keyParent, FmVal.s parent_title) ::
            (let gp_id := clean_str (pyGetD parent_by_page_id parent_id []) []
             if gp_id.isEmpty then []
             else
               let gp_title := normalize_nav_title (pyGetD title_by_page_id gp_id [])
               if gp_title.isEmpty then []
               else [(keyGrandParent, FmVal.s gp_title)]))

/-- `WELCOME_PAGE_ID` (generatemd4.py line 28). -/
def WELCOME_PAGE_ID : List Char := "00000000_en".toList

/-- Fate of one spreadsheet row in the driver loop (generatemd4.py lines
282-289): blank ids are passed over silently, the welcome/root id is counted
as skipped, every other row is written. -/
inductive RowAction
  | skipBlank
  | skipWelcome
  | write
deriving DecidableEq

/-- Decision taken by `main` for a row with the given raw `page_id` cell. -/
def row_action (page_id_cell : List Char) : RowAction :=
  let pid := clean_str page_id_cell []
  if pid.isEmpty then RowAction.skipBlank
  else if pid = WELCOME_PAGE_ID then RowAction.skipWelcome
  else RowAction.write

/-- The `wrote` and `skipped` counters of `main` over a list of raw `page_id`
cells (generatemd4.py lines 279-332). -/
def main_counts : List (List Char) → Nat × Nat
  | [] => (0, 0)
  | pid :: rest =>
    let ws := main_counts rest
    match row_action pid with
    | RowAction.skipBlank => ws
    | RowAction.skipWelcome => (ws.1, ws.2 + 1)
    | RowAction.write => (ws.1 + 1, ws.2)

/-- Cleaned ids of the rows for which `main` calls `upsert_markdown_file`. -/
def written_ids (rows : List (List Char)) : List (List Char) :=
  (rows.filter (fun p => row_action p = RowAction.write)).map (fun p => clean_str p [])

/-- The `nav_order` computation of the driver (generatemd4.py lines 301-304):
`as_int(row.get("display_order", 0), default=0)` with fallback 1 when the
result is not positive; a missing column yields the integer default `0`. -/
def nav_order_of (cell : Option (List Char)) : Int :=
  let n : Int :=
    match cell with
    | none => 0
    | some s => as_int s 0
  if n ≤ 0 then 1 else n

/-
Helper lemmas about the list-level primitives.
-/

theorem isPrefixOf_ex {pat s : List Char} (h : pat.isPrefixOf s = true) :
    ∃ t, pat ++ t = s := by
  induction pat generalizing s with
  | nil => exact ⟨s, rfl⟩
  | cons a as ih =>
    cases s with
    | nil => simp [List.isPrefixOf] at h
    | cons b bs =>
      simp only [List.isPrefixOf, Bool.and_eq_true, beq_iff_eq] at h
      obtain ⟨t, ht⟩ := ih h.2
      exact ⟨t, by simp [h.1, ht]⟩

theorem isPrefixOf_app {pat u : List Char} (v : List Char)
    (h : pat.isPrefixOf u = true) : pat.isPrefixOf (u ++ v) = true := by
  induction pat generalizing u with
  | nil => simp [List.isPrefixOf]
  | cons a as ih =>
    cases u with
    | nil => simp [List.isPrefixOf] at h
    | cons b bs =>
      simp only [List.isPrefixOf, Bool.and_eq_true, beq_iff_eq] at h ⊢
      exact ⟨h.1, ih h.2⟩

theorem self_isPrefixOf_app (pat v : List Char) :
    pat.isPrefixOf (pat ++ v) = true := by
  induction pat with
  | nil => simp [List.isPrefixOf]
  | cons a as ih => simp [List.isPrefixOf, ih]

theorem isPrefixOf_stop {pat u r : List Char} (hnl : '\n' ∈ pat → False)
    (h : pat.isPrefixOf (u ++ '\n' :: r) = true) : pat.isPrefixOf u = true := by
  induction pat generalizing u with
  | nil => simp [List.isPrefixOf]
  | cons a as ih =>
    cases u with
    | nil =>
      simp only [List.nil_append, List.isPrefixOf, Bool.and_eq_true, beq_iff_eq] at h
      exact (hnl (by rw [h.1]; exact List.mem_cons_self '\n' as)).elim
    | cons b bs =>
      simp only [List.cons_append, List.isPrefixOf, Bool.and_eq_true, beq_iff_eq] at h ⊢
      exact ⟨h.1, ih (fun hm => hnl (List.mem_cons_of_mem a hm)) h.2⟩

theorem ciPref_app {pat u : List Char} (v : List Char)
    (h : (ciPref pat u).isSome = true) : (ciPref pat (u ++ v)).isSome = true := by
  induction pat generalizing u with
  | nil => simp [ciPref]
  | cons a as ih =>
    cases u with
    | nil => simp [ciPref] at h
    | cons b bs =>
      simp only [ciPref, List.cons_append] at h ⊢
      by_cases hab : a = b.toLower
      · rw [if_pos hab] at h ⊢
        exact ih h
      · rw [if_neg hab] at h
        simp at h

theorem ciPref_stop {pat u r : List Char} (hnl : '\n' ∈ pat → False)
    (h : (ciPref pat (u ++ '\n' :: r)).isSome = true) :
    (ciPref pat u).isSome = true := by
  induction pat generalizing u with
  | nil => simp [ciPref]
  | cons a as ih =>
    cases u with
    | nil =>
      simp only [List.nil_append, ciPref] at h
      by_cases hab : a = Char.toLower '\n'
      · have ha : a = '\n' := by simpa using hab
        exact (hnl (by rw [ha]; exact List.mem_cons_self '\n' as)).elim
      · rw [if_neg hab] at h
        simp at h
    | cons b bs =>
      simp only [List.cons_append, ciPref] at h ⊢
      by_cases hab : a = b.toLower
      · rw [if_pos hab] at h ⊢
        exact ih (fun hm => hnl (List.mem_cons_of_mem a hm)) h
      · rw [if_neg hab] at h
        simp at h

theorem hasOcc_head {pat s : List Char} (h : (ciPref pat s).isSome = true) :
    hasOccCI pat s = true := by
  cases s with
  | nil =>
    cases pat with
    | nil => rfl
    | cons a as => simp [ciPref] at h
  | cons c cs => simp [hasOccCI, h]

theorem hasOcc_suffix {pat v : List Char} (w : List Char)
    (h : hasOccCI pat v = true) : hasOccCI pat (w ++ v) = true := by
  induction w with
  | nil => simpa
  | cons a as ih => simp [hasOccCI, ih]

theorem hasOcc_drop {pat s : List Char} {p : Nat}
    (h : hasOccCI pat (s.drop p) = true) : hasOccCI pat s = true := by
  have := hasOcc_suffix (s.take p) h
  rwa [List.take_append_drop] at this

theorem hasOcc_pref_mono {pat u s : List Char} (hp : ∃ t, u ++ t = s)
    (h : hasOccCI pat u = true) : hasOccCI pat s = true := by
  obtain ⟨t, rfl⟩ := hp
  induction u with
  | nil =>
    cases pat with
    | nil =>
      cases t with
      | nil => rfl
      | cons a as => simp [hasOccCI, ciPref]
    | cons a as => simp [hasOccCI] at h
  | cons a as ih =>
    simp only [hasOccCI, Bool.or_eq_true, List.cons_append] at h ⊢
    rcases h with h | h
    · exact Or.inl (ciPref_app t h)
    · exact Or.inr (ih h)

theorem dropWhile_idem (p : Char → Bool) (l : List Char) :
    (l.dropWhile p).dropWhile p = l.dropWhile p := by
  induction l with
  | nil => rfl
  | cons a as ih =>
    by_cases ha : p a
    · simp [List.dropWhile, ha, ih]
    · simp [List.dropWhile, ha]

theorem pyRstrip_idem (x : List Char) : pyRstrip (pyRstrip x) = pyRstrip x := by
  unfold pyRstrip
  rw [List.reverse_reverse, dropWhile_idem]

theorem pyRstrip_ex (x : List Char) : ∃ t, pyRstrip x ++ t = x := by
  refine ⟨(x.reverse.takeWhile pySpace).reverse, ?_⟩
  unfold pyRstrip
  rw [← List.reverse_append, List.takeWhile_append_dropWhile, List.reverse_reverse]

theorem length_dropWhile_le (p : Char → Bool) (l : List Char) :
    (l.dropWhile p).length ≤ l.length := by
  induction l with
  | nil => simp
  | cons a as ih =>
    by_cases ha : p a
    · rw [List.dropWhile_cons_of_pos ha]
      exact Nat.le_succ_of_le ih
    · rw [List.dropWhile_cons_of_neg (by simpa using ha)]

theorem rstrip_self_of_rev {v : List Char} {c : Char} {r : List Char}
    (h : v.reverse = c :: r) (hc : pySpace c = false) : pyRstrip v = v := by
  unfold pyRstrip
  rw [h, List.dropWhile_cons_of_neg (by simp [hc]), ← h, List.reverse_reverse]

theorem rev_head_not_ws {v : List Char} (h : pyRstrip v = v) (hv : v ≠ []) :
    ∃ c r, v.reverse = c :: r ∧ pySpace c = false := by
  have hrev : v.reverse.dropWhile pySpace = v.reverse := by
    have := congrArg List.reverse h
    rwa [pyRstrip, List.reverse_reverse] at this
  cases hr : v.reverse with
  | nil => exact absurd (by simpa using congrArg List.reverse hr) hv
  | cons c r =>
    refine ⟨c, r, rfl, ?_⟩
    by_cases hc : pySpace c
    · exfalso
      rw [hr, List.dropWhile_cons_of_pos hc] at hrev
      have hlen := congrArg List.length hrev
      have := length_dropWhile_le pySpace r
      simp at hlen
      omega
    · simpa using hc

theorem nonws_of_rstrip_self {u : List Char} (h : pyRstrip u = u) (hu : u ≠ []) :
    ∃ c ∈ u, pySpace c = false := by
  obtain ⟨c, r, hcr, hc⟩ := rev_head_not_ws h hu
  exact ⟨c, List.mem_reverse.mp (hcr ▸ List.mem_cons_self c r), hc⟩

theorem pyRstrip_append_right {u v : List Char} (h : pyRstrip v ≠ []) :
    pyRstrip (u ++ v) = u ++ pyRstrip v := by
  have hne : (v.reverse.dropWhile pySpace).isEmpty = false := by
    cases hd : v.reverse.dropWhile pySpace with
    | nil => exact absurd (by simp [pyRstrip, hd]) h
    | cons a as => rfl
  unfold pyRstrip
  rw [List.reverse_append, List.dropWhile_append, hne]
  simp

theorem rstrip_drop {K : List Char} {p : Nat} (h : pyRstrip K = K)
    (hp : p < K.length) : pyRstrip (K.drop p) = K.drop p := by
  obtain ⟨c, r, hcr, hc⟩ := rev_head_not_ws h (by
    intro hnil
    rw [hnil] at hp
    simp at hp)
  have hm : K.length - p = (K.length - p - 1) + 1 := by omega
  have : (K.drop p).reverse = c :: (r.take (K.length - p - 1)) := by
    rw [List.reverse_drop, hcr, hm, List.take_succ_cons]
    simp
  exact rstrip_self_of_rev this hc

theorem dropWhile_ne_nil_of_nonws {u : List Char}
    (h : ∃ c ∈ u, pySpace c = false) : u.dropWhile pySpace ≠ [] := by
  induction u with
  | nil => simp at h
  | cons a as ih =>
    obtain ⟨c, hc, hcw⟩ := h
    by_cases ha : pySpace a
    · rw [List.dropWhile_cons_of_pos ha]
      rcases List.mem_cons.mp hc with rfl | hmem
      · rw [hcw] at ha; cases ha
      · exact ih ⟨c, hmem, hcw⟩
    · rw [List.dropWhile_cons_of_neg (by simpa using ha)]
      simp

theorem lstrip_append {u : List Char} (v : List Char)
    (h : ∃ c ∈ u, pySpace c = false) :
    pyLstrip (u ++ v) = pyLstrip u ++ v := by
  have hne : (u.dropWhile pySpace).isEmpty = false := by
    cases hd : u.dropWhile pySpace with
    | nil => exact absurd hd (dropWhile_ne_nil_of_nonws h)
    | cons a as => rfl
  unfold pyLstrip
  rw [List.dropWhile_append, hne]
  simp

theorem lstrip_suffix (u : List Char) : ∃ w, w ++ pyLstrip u = u :=
  ⟨u.takeWhile pySpace, List.takeWhile_append_dropWhile pySpace u⟩

theorem subEu_ex (x : List Char) : ∃ t, subEu x ++ t = x := by
  induction x with
  | nil => exact ⟨[], rfl⟩
  | cons c cs ih =>
    by_cases h : euMatch (c :: cs)
    · exact ⟨c :: cs, by simp [subEu, h]⟩
    · obtain ⟨t, ht⟩ := ih
      exact ⟨t, by simp [subEu, h, ht]⟩

theorem subEu_cut {x : List Char} {p : Nat} (h : euMatch (x.drop p) = true) :
    (subEu x).length ≤ p := by
  induction x generalizing p with
  | nil => simp [subEu]
  | cons c cs ih =>
    cases p with
    | zero =>
      rw [List.drop_zero] at h
      simp [subEu, h]
    | succ q =>
      rw [List.drop_succ_cons] at h
      by_cases hm : euMatch (c :: cs)
      · simp [subEu, hm]
      · simpa [subEu, hm, Nat.succ_le_succ_iff] using ih h

theorem subEu_all_id {x : List Char}
    (h : ∀ p, p < x.length → euMatch (x.drop p) = false) : subEu x = x := by
  induction x with
  | nil => rfl
  | cons c cs ih =>
    have h0 : euMatch (c :: cs) = false := by simpa using h 0 (by simp)
    have hrest : subEu cs = cs := by
      refine ih (fun p hp => ?_)
      simpa [List.drop_succ_cons] using h (p + 1) (by simpa using Nat.succ_lt_succ hp)
    simp [subEu, h0, hrest]

theorem subEu_append {K rest : List Char}
    (h1 : ∀ p, p < K.length → euMatch ((K ++ rest).drop p) = false)
    (h2 : euMatch rest = true) : subEu (K ++ rest) = K := by
  induction K with
  | nil =>
    cases rest with
    | nil => rfl
    | cons c cs => simp [subEu, h2]
  | cons a K' ih =>
    have h0 : euMatch (a :: (K' ++ rest)) = false := by
      simpa using h1 0 (by simp)
    have htail : subEu (K' ++ rest) = K' := by
      refine ih (fun p hp => ?_)
      simpa [List.drop_succ_cons] using
        h1 (p + 1) (by simp; omega)
    simp [subEu, h0, htail]

theorem occ_append_left_zero {pat : List Char} {a c : List Char}
    (h : ∀ p, p < a.length → pat.isPrefixOf ((a ++ c).drop p) = false) :
    occursCount pat (a ++ c) = occursCount pat c := by
  induction a with
  | nil => rfl
  | cons x xs ih =>
    have h0 : pat.isPrefixOf (x :: (xs ++ c)) = false := by
      simpa using h 0 (by simp)
    have hrest : occursCount pat (xs ++ c) = occursCount pat c := by
      refine ih (fun p hp => ?_)
      simpa [List.drop_succ_cons] using h (p + 1) (by simp; omega)
    simp [occursCount, h0, hrest]

theorem occ_pos {pat s : List Char} {p : Nat} (hp : p < s.length)
    (h : pat.isPrefixOf (s.drop p) = true) : 1 ≤ occursCount pat s := by
  induction s generalizing p with
  | nil => simp at hp
  | cons c cs ih =>
    cases p with
    | zero =>
      rw [List.drop_zero] at h
      simp [occursCount, h]
    | succ q =>
      rw [List.drop_succ_cons] at h
      have := ih (show q < cs.length by simpa using Nat.lt_of_succ_lt_succ hp) h
      simp only [occursCount]
      omega

theorem occ_le_of_imp {pat1 pat2 : List Char} (s : List Char)
    (h : ∀ t : List Char, pat1.isPrefixOf t = true → pat2.isPrefixOf t = true) :
    occursCount pat1 s ≤ occursCount pat2 s := by
  induction s with
  | nil => simp [occursCount]
  | cons c cs ih =>
    simp only [occursCount]
    by_cases h1 : pat1.isPrefixOf (c :: cs)
    · rw [h1, h (c :: cs) h1]
      omega
    · simp only [Bool.not_eq_true] at h1
      rw [h1]
      simp
      omega

theorem rstrip_no_nl_end {w : List Char} (h : pyRstrip w = w) (v : List Char)
    (hw : w = v ++ ['\n']) : False := by
  obtain ⟨c, r, hcr, hc⟩ := rev_head_not_ws h (by rw [hw]; simp)
  rw [hw, List.reverse_append] at hcr
  simp only [List.reverse_cons, List.reverse_nil, List.nil_append,
    List.cons_append, List.cons.injEq] at hcr
  rw [← hcr.1] at hc
  simp [pySpace] at hc

/-- Central step for footer idempotence: on a right-stripped body `u` that
contains no `---`, no comment opener and no `hr`/`table`/`div` tag opener,
the removal pattern matches neither `u` itself (`ext = []`) nor `u` followed
by a newline-led continuation such as the freshly appended footer block
(`ext = '\n' :: _`): every viable match would have to start a core or absorb
a `---`/`<hr>` inside `u`, which the occurrence hypotheses rule out, and no
pattern literal can straddle the newline boundary. -/
theorem euMatch_clean_false (u ext : List Char)
    (hext : ext = [] ∨ ∃ r, ext = '\n' :: r)
    (hu : u ≠ []) (hsr : pyRstrip u = u)
    (h1 : hasOccCI ("---".toList) u = false)
    (h2 : hasOccCI ("<!--".toList) u = false)
    (h3 : hasOccCI ("<hr".toList) u = false)
    (h4 : hasOccCI ("<table".toList) u = false)
    (h5 : hasOccCI ("<div".toList) u = false) :
    euMatch (u ++ ext) = false := by
  have noPref : ∀ pat v, ('\n' ∈ pat → False) → hasOccCI pat u = false →
      (∃ w, w ++ v = u) → ciPref pat (v ++ ext) = none := by
    intro pat v hnl hocc hsub
    cases hp : ciPref pat (v ++ ext) with
    | none => rfl
    | some r =>
      exfalso
      have hp' : (ciPref pat (v ++ ext)).isSome = true := by rw [hp]; rfl
      have hv : (ciPref pat v).isSome = true := by
        rcases hext with he | ⟨r2, he⟩
        · rwa [he, List.append_nil] at hp'
        · rw [he] at hp'
          exact ciPref_stop hnl hp'
      obtain ⟨w, hw⟩ := hsub
      have hocc2 : hasOccCI pat u = true := by
        rw [← hw]
        exact hasOcc_suffix w (hasOcc_head hv)
      rw [hocc2] at hocc
      cases hocc
  have hnonws := nonws_of_rstrip_self hsr hu
  have hlu : pyLstrip (u ++ ext) = pyLstrip u ++ ext := lstrip_append ext hnonws
  have hsubl : ∃ w, w ++ pyLstrip u = u := lstrip_suffix u
  have hcm : ciPref ("<!--".toList) (pyLstrip u ++ ext) = none :=
    noPref _ _ (by decide) h2 hsubl
  have hct : ciPref ("<table".toList) (pyLstrip u ++ ext) = none :=
    noPref _ _ (by decide) h4 hsubl
  have hcd : ciPref ("<div".toList) (pyLstrip u ++ ext) = none :=
    noPref _ _ (by decide) h5 hsubl
  have hch : ciPref ("<hr".toList) (pyLstrip u ++ ext) = none :=
    noPref _ _ (by decide) h3 hsubl
  have hcore : coreStart (pyLstrip u ++ ext) = false := by
    unfold coreStart core1 core2 core3
    rw [hcm, hct, hcd]
    rfl
  have hhr : hrAfter (pyLstrip u ++ ext) = false := by
    unfold hrAfter
    rw [hch]
  have hws : wsHrCore (u ++ ext) = false := by
    unfold wsHrCore
    rw [hlu, hcore, hhr]
    rfl
  have hdp : dashPart (u ++ ext) = false := by
    unfold dashPart
    rw [noPref ("---".toList) u (by decide) h1 ⟨[], rfl⟩]
  have hnld : nlDash (u ++ ext) = false := by
    rcases u with _ | ⟨c, u1⟩
    · exact absurd rfl hu
    · by_cases hc : c = '\n'
      · subst hc
        have hu1 : u1 ≠ [] := by
          intro h0
          subst h0
          exact rstrip_no_nl_end hsr [] rfl
        have hd1 : dashPart (u1 ++ ext) = false := by
          unfold dashPart
          rw [noPref ("---".toList) u1 (by decide) h1 ⟨['\n'], rfl⟩]
        rcases u1 with _ | ⟨c2, u2⟩
        · exact absurd rfl hu1
        · by_cases hc2 : c2 = '\n'
          · subst hc2
            have hu2 : u2 ≠ [] := by
              intro h0
              subst h0
              exact rstrip_no_nl_end hsr ['\n'] rfl
            have hd2 : dashPart (u2 ++ ext) = false := by
              unfold dashPart
              rw [noPref ("---".toList) u2 (by decide) h1 ⟨['\n', '\n'], rfl⟩]
            rw [List.cons_append] at hd1
            simp [List.cons_append, nlDash, hd1, hd2]
          · rw [List.cons_append] at hd1
            simp [List.cons_append, nlDash, hd1, hc2]
      · simp [List.cons_append, nlDash, hc]
  simp [euMatch, hws, hdp, hnld]

theorem euMatch_marker (rest : List Char) :
    euMatch (EU_BLOCK_MARKER ++ rest) = true := rfl

theorem ensure_base :
    ensure_eu_block_at_end (nl2 ++ EU_FUNDING_BLOCK) = nl2 ++ EU_FUNDING_BLOCK := by
  decide

theorem rstrip_nl2_block :
    pyRstrip (nl2 ++ EU_FUNDING_BLOCK) = '\n' :: ('\n' :: pyRstrip EU_FUNDING_BLOCK) := by
  decide

theorem euMatch_nl2_block : euMatch (pyRstrip (nl2 ++ EU_FUNDING_BLOCK)) = true := by
  decide

/-- Claim C1 counterexample: the Footer Normalizer is not idempotent.  On the
body `"Hello\n<hr>"` the first pass removes nothing (there is no footer core),
but on its output the trailing `<hr>` of the preserved body fuses with the
freshly appended marker block into a new match of the removal pattern, so the
second pass deletes the `<hr>`. -/
theorem thmC1_counterexample :
    ensure_eu_block_at_end (ensure_eu_block_at_end ("Hello\n<hr>".toList)) ≠
      ensure_eu_block_at_end ("Hello\n<hr>".toList) := by
  decide

/-- Claim C1, amended: `ensure_eu_block_at_end` is idempotent on every body
that contains no occurrence of `---` and no case-insensitive occurrence of
`<!--`, `<hr`, `<table` or `<div` — i.e. no fragment that the removal
pattern's optional prefixes or cores could match; in general idempotence
fails (see the counterexample). -/
theorem thmC1 (b : List Char)
    (h1 : hasOccCI ("---".toList) b = false)
    (h2 : hasOccCI ("<!--".toList) b = false)
    (h3 : hasOccCI ("<hr".toList) b = false)
    (h4 : hasOccCI ("<table".toList) b = false)
    (h5 : hasOccCI ("<div".toList) b = false) :
    ensure_eu_block_at_end (ensure_eu_block_at_end b) = ensure_eu_block_at_end b := by
  set K := pyRstrip b with hKdef
  have hKpre : ∃ t, K ++ t = b := pyRstrip_ex b
  have trans : ∀ pat, hasOccCI pat b = false → hasOccCI pat K = false := by
    intro pat hb
    cases hg : hasOccCI pat K with
    | false => rfl
    | true =>
      rw [hasOcc_pref_mono hKpre hg] at hb
      cases hb
  have g1 := trans _ h1
  have g2 := trans _ h2
  have g3 := trans _ h3
  have g4 := trans _ h4
  have g5 := trans _ h5
  have dropOcc : ∀ pat p, hasOccCI pat K = false →
      hasOccCI pat (K.drop p) = false := by
    intro pat p hk
    cases hg : hasOccCI pat (K.drop p) with
    | false => rfl
    | true =>
      rw [hasOcc_drop hg] at hk
      cases hk
  by_cases hKnil : K = []
  · have e1 : ensure_eu_block_at_end b = nl2 ++ EU_FUNDING_BLOCK := by
      show pyRstrip (subEu (pyRstrip b)) ++ nl2 ++ EU_FUNDING_BLOCK = nl2 ++ EU_FUNDING_BLOCK
      rw [← hKdef, hKnil]
      rfl
    rw [e1, ensure_base]
  · have hKr : pyRstrip K = K := by
      rw [hKdef]
      exact pyRstrip_idem b
    have hdropne : ∀ p, p < K.length → K.drop p ≠ [] := by
      intro p hp h0
      have := congrArg List.length h0
      simp [List.length_drop] at this
      omega
    have hMnone : ∀ p, p < K.length → euMatch (K.drop p) = false := by
      intro p hp
      have h := euMatch_clean_false (K.drop p) [] (Or.inl rfl) (hdropne p hp)
        (rstrip_drop hKr hp) (dropOcc _ p g1) (dropOcc _ p g2) (dropOcc _ p g3)
        (dropOcc _ p g4) (dropOcc _ p g5)
      simpa using h
    have hsub1 : subEu K = K := subEu_all_id hMnone
    have e1 : ensure_eu_block_at_end b = K ++ (nl2 ++ EU_FUNDING_BLOCK) := by
      show pyRstrip (subEu (pyRstrip b)) ++ nl2 ++ EU_FUNDING_BLOCK = K ++ (nl2 ++ EU_FUNDING_BLOCK)
      rw [← hKdef, hsub1, hKr, List.append_assoc]
    have e2 : pyRstrip (K ++ (nl2 ++ EU_FUNDING_BLOCK)) =
        K ++ pyRstrip (nl2 ++ EU_FUNDING_BLOCK) :=
      pyRstrip_append_right (by rw [rstrip_nl2_block]; simp)
    have hM2 : ∀ p, p < K.length →
        euMatch ((K ++ pyRstrip (nl2 ++ EU_FUNDING_BLOCK)).drop p) = false := by
      intro p hp
      rw [List.drop_append_of_le_length (Nat.le_of_lt hp)]
      exact euMatch_clean_false (K.drop p) _ (Or.inr ⟨_, rstrip_nl2_block⟩)
        (hdropne p hp) (rstrip_drop hKr hp) (dropOcc _ p g1) (dropOcc _ p g2)
        (dropOcc _ p g3) (dropOcc _ p g4) (dropOcc _ p g5)
    have hsub2 : subEu (K ++ pyRstrip (nl2 ++ EU_FUNDING_BLOCK)) = K :=
      subEu_append hM2 euMatch_nl2_block
    rw [e1]
    show pyRstrip (subEu (pyRstrip (K ++ (nl2 ++ EU_FUNDING_BLOCK)))) ++ nl2 ++
        EU_FUNDING_BLOCK = K ++ (nl2 ++ EU_FUNDING_BLOCK)
    rw [e2, hsub2, hKr, List.append_assoc]

/-- Witness for the amended C1 at a concrete clean body. -/
theorem thmC1_witness :
    ensure_eu_block_at_end (ensure_eu_block_at_end ("Hello world".toList)) =
      ensure_eu_block_at_end ("Hello world".toList) :=
  thmC1 ("Hello world".toList) (by decide) (by decide) (by decide) (by decide)
    (by decide)

/-- Claim C2 counterexample: footer-like content in the middle of the body is
not always left untouched.  In `"A\n<!-- EU_FUNDING_FOOTER -->\nZZZ"` the
marker sits strictly mid-body with the user content `ZZZ` after it; the
marker alternative of the removal pattern matches from the marker to the end
of the body, so normalization deletes the user content `ZZZ` as well. -/
theorem thmC2_counterexample :
    hasOccCI ("zzz".toList) ("A\n<!-- EU_FUNDING_FOOTER -->\nZZZ".toList) = true ∧
      hasOccCI ("zzz".toList)
        (ensure_eu_block_at_end ("A\n<!-- EU_FUNDING_FOOTER -->\nZZZ".toList)) = false := by
  decide

/-- Claim C2, amended: `ensure_eu_block_at_end` only ever deletes a suffix of
the right-trimmed body and appends the canonical block — the output is always
a prefix of the trimmed body followed by two newlines and the block.  Content
before the leftmost removal-pattern match is preserved verbatim; however the
deleted suffix may begin at footer-like content in the middle of the body (in
particular everything from a mid-body footer marker to the end is deleted, as
the counterexample shows), so mid-body material after such a match start is
not preserved. -/
theorem thmC2 (b : List Char) :
    ∃ K t, K ++ t = pyRstrip b ∧
      ensure_eu_block_at_end b = K ++ nl2 ++ EU_FUNDING_BLOCK := by
  obtain ⟨t1, ht1⟩ := pyRstrip_ex (subEu (pyRstrip b))
  obtain ⟨t2, ht2⟩ := subEu_ex (pyRstrip b)
  refine ⟨pyRstrip (subEu (pyRstrip b)), t1 ++ t2, ?_, rfl⟩
  rw [← List.append_assoc, ht1, ht2]

/-- Claim C3: for every body, the output of the Footer Normalizer is a
right-trimmed kept prefix, exactly two newlines, and the canonical block; the
footer marker occurs exactly once in the output, and the canonical block
occurs exactly once (at the very end), no matter what footer variants the
input ended with. -/
theorem thmC3 (b : List Char) :
    ∃ K, ensure_eu_block_at_end b = K ++ nl2 ++ EU_FUNDING_BLOCK ∧
      pyRstrip K = K ∧
      occursCount EU_BLOCK_MARKER (ensure_eu_block_at_end b) = 1 ∧
      occursCount EU_FUNDING_BLOCK (ensure_eu_block_at_end b) = 1 := by
  set x := pyRstrip b with hx
  set K := pyRstrip (subEu x) with hK
  have hEns : ensure_eu_block_at_end b = K ++ (nl2 ++ EU_FUNDING_BLOCK) := by
    show pyRstrip (subEu (pyRstrip b)) ++ nl2 ++ EU_FUNDING_BLOCK = _
    rw [← hx, ← hK, List.append_assoc]
  have hnomk : ∀ p, p < K.length →
      EU_BLOCK_MARKER.isPrefixOf ((K ++ (nl2 ++ EU_FUNDING_BLOCK)).drop p) = false := by
    intro p hp
    cases hm : EU_BLOCK_MARKER.isPrefixOf ((K ++ (nl2 ++ EU_FUNDING_BLOCK)).drop p) with
    | false => rfl
    | true =>
      exfalso
      rw [List.drop_append_of_le_length (Nat.le_of_lt hp),
        show nl2 ++ EU_FUNDING_BLOCK = '\n' :: ('\n' :: EU_FUNDING_BLOCK) from rfl] at hm
      have hm2 : EU_BLOCK_MARKER.isPrefixOf (K.drop p) = true :=
        isPrefixOf_stop (by decide) hm
      obtain ⟨t1, ht1⟩ := pyRstrip_ex (subEu x)
      obtain ⟨t2, ht2⟩ := subEu_ex x
      have hlen1 : K.length ≤ (subEu x).length := by
        rw [← ht1]
        simp
      have hxeq : K ++ (t1 ++ t2) = x := by
        rw [← List.append_assoc, ht1, ht2]
      have hxdrop : x.drop p = K.drop p ++ (t1 ++ t2) := by
        rw [← hxeq, List.drop_append_of_le_length (Nat.le_of_lt hp)]
      have hmx : EU_BLOCK_MARKER.isPrefixOf (x.drop p) = true := by
        rw [hxdrop]
        exact isPrefixOf_app _ hm2
      obtain ⟨rest, hrest⟩ := isPrefixOf_ex hmx
      have hEu : euMatch (x.drop p) = true := by
        rw [← hrest]
        exact euMatch_marker rest
      have hcut := subEu_cut hEu
      omega
  have hocc1 : occursCount EU_BLOCK_MARKER (K ++ (nl2 ++ EU_FUNDING_BLOCK)) = 1 := by
    rw [occ_append_left_zero hnomk]
    decide
  have hnoblk : ∀ p, p < K.length →
      EU_FUNDING_BLOCK.isPrefixOf ((K ++ (nl2 ++ EU_FUNDING_BLOCK)).drop p) = false := by
    intro p hp
    cases hm : EU_FUNDING_BLOCK.isPrefixOf ((K ++ (nl2 ++ EU_FUNDING_BLOCK)).drop p) with
    | false => rfl
    | true =>
      exfalso
      have hmk : EU_BLOCK_MARKER.isPrefixOf ((K ++ (nl2 ++ EU_FUNDING_BLOCK)).drop p)
          = true := by
        obtain ⟨rest, hrest⟩ := isPrefixOf_ex hm
        rw [← hrest, ← show EU_BLOCK_MARKER ++ EU_FUNDING_BLOCK.drop 26 = EU_FUNDING_BLOCK
            from by decide, List.append_assoc]
        exact self_isPrefixOf_app _ _
      rw [hnomk p hp] at hmk
      cases hmk
  have hocc2 : occursCount EU_FUNDING_BLOCK (K ++ (nl2 ++ EU_FUNDING_BLOCK)) = 1 := by
    rw [occ_append_left_zero hnoblk]
    decide
  refine ⟨K, by rw [hEns, List.append_assoc], pyRstrip_idem _, ?_, ?_⟩
  · rw [hEns]
    exact hocc1
  · rw [hEns]
    exact hocc2

theorem split_fm_append (t : List Char) :
    (split_frontmatter t).1 ++ (split_frontmatter t).2 = t := by
  unfold split_frontmatter
  cases h : matchFM t with
  | some n => simp [List.take_append_drop]
  | none => simp

/-- Claim C10: `split_frontmatter` is a lossless split anchored at the start:
the two components always concatenate back to the input, and a text that does
not begin with `---` at its very first character is returned unsplit — a
`---` block later in the text is never treated as front matter. -/
theorem thmC10 (t : List Char) :
    (split_frontmatter t).1 ++ (split_frontmatter t).2 = t ∧
      (("---".toList).isPrefixOf t = false → split_frontmatter t = ([], t)) := by
  refine ⟨split_fm_append t, fun h => ?_⟩
  have h2 : (['-', '-', '-'] : List Char).isPrefixOf t = false := h
  have hl : litPref (['-', '-', '-'] : List Char) t = none := by
    unfold litPref
    rw [h2]
    rfl
  simp [split_frontmatter, matchFM, hl]

/-- Witness for C10 on a text whose `---` block starts mid-text. -/
theorem thmC10_witness :
    ("---".toList).isPrefixOf ("body\n---\nx\n---\n".toList) = false ∧
      split_frontmatter ("body\n---\nx\n---\n".toList) =
        ([], "body\n---\nx\n---\n".toList) :=
  ⟨by decide, (thmC10 ("body\n---\nx\n---\n".toList)).2 (by decide)⟩

/-- Claim C4: the upsert engine writes the new front-matter block followed by
the footer-normalized old body when the file exists (the old front matter,
recovered losslessly by the split, is discarded), writes the new front matter
followed by the footer-normalized stub when it does not, and returns true in
both cases. -/
theorem thmC4 (c f s : List Char) :
    upsert_markdown_file (some c) f s =
        (f ++ ensure_eu_block_at_end (split_frontmatter c).2, true) ∧
      (split_frontmatter c).1 ++ (split_frontmatter c).2 = c ∧
      upsert_markdown_file none f s = (f ++ ensure_eu_block_at_end s, true) :=
  ⟨rfl, split_fm_append c, rfl⟩

/-- Claim C7: the driver's `nav_order` is always at least one; it is the
fallback 1 exactly when the parsed `display_order` is missing or not
positive, and the parsed value itself when that value is positive. -/
theorem thmC7 :
    (∀ cell, 1 ≤ nav_order_of cell) ∧ nav_order_of none = 1 ∧
      (∀ s, as_int s 0 ≤ 0 → nav_order_of (some s) = 1) ∧
      (∀ s, 0 < as_int s 0 → nav_order_of (some s) = as_int s 0) := by
  refine ⟨?_, by decide, ?_, ?_⟩
  · intro cell
    cases cell with
    | none => decide
    | some s =>
      show (1 : Int) ≤ if as_int s 0 ≤ 0 then 1 else as_int s 0
      split
      · omega
      · omega
  · intro s h
    show (if as_int s 0 ≤ 0 then 1 else as_int s 0) = 1
    rw [if_pos h]
  · intro s h
    show (if as_int s 0 ≤ 0 then 1 else as_int s 0) = as_int s 0
    rw [if_neg (by omega)]

/-- Witness for C7 at a zero and at a positive display order. -/
theorem thmC7_witness :
    nav_order_of (some ("0".toList)) = 1 ∧
      nav_order_of (some ("4.0".toList)) = as_int ("4.0".toList) 0 :=
  ⟨thmC7.2.2.1 ("0".toList) (by decide), thmC7.2.2.2 ("4.0".toList) (by decide)⟩

/-- Claim C8: `as_int` parses the trimmed value as a decimal float literal
and truncates toward zero, returning the default on missing input or any
parse failure; in particular the spec's three examples hold (and a negative
fractional input truncates toward zero). -/
theorem thmC8 :
    as_int ("3.0".toList) 0 = 3 ∧ as_int [] 5 = 5 ∧ as_int ("abc".toList) 2 = 2 ∧
      as_int ("  -7.9 ".toList) 0 = -7 ∧
      (∀ s d, is_missing s = true → as_int s d = d) ∧
      (∀ s d, is_missing s = false → pyFloatTrunc (pyStrip s) = none → as_int s d = d) ∧
      (∀ s d n, is_missing s = false → pyFloatTrunc (pyStrip s) = some n →
        as_int s d = n) := by
  refine ⟨by decide, by decide, by decide, by decide, ?_, ?_, ?_⟩
  · intro s d h
    simp [as_int, h]
  · intro s d h hp
    simp [as_int, h, hp]
  · intro s d n h hp
    simp [as_int, h, hp]

/-- Witness for C8: a `nan` spelling is missing, a malformed number falls
back to the default, and a parsed value is returned. -/
theorem thmC8_witness :
    as_int (" nAn".toList) 7 = 7 ∧ as_int ("12x".toList) 9 = 9 ∧
      as_int (" 25 ".toList) 0 = 25 :=
  ⟨thmC8.2.2.2.2.1 (" nAn".toList) 7 (by decide),
   thmC8.2.2.2.2.2.1 ("12x".toList) 9 (by decide) (by decide),
   thmC8.2.2.2.2.2.2 (" 25 ".toList) 0 25 (by decide) (by decide)⟩

/-- Claim C9: a row whose cleaned identity key is the welcome/root key is
counted as skipped and never produces a written file; a row with a non-empty,
non-welcome cleaned key is counted as written and its id appears among the
written files. -/
theorem thmC9 :
    (∀ pid rest, clean_str pid [] = WELCOME_PAGE_ID →
        main_counts (pid :: rest) = ((main_counts rest).1, (main_counts rest).2 + 1)) ∧
      (∀ rows, WELCOME_PAGE_ID ∉ written_ids rows) ∧
      (∀ pid rest, clean_str pid [] ≠ [] → clean_str pid [] ≠ WELCOME_PAGE_ID →
          main_counts (pid :: rest) = ((main_counts rest).1 + 1, (main_counts rest).2) ∧
          clean_str pid [] ∈ written_ids (pid :: rest)) := by
  refine ⟨?_, ?_, ?_⟩
  · intro pid rest h
    have hra : row_action pid = RowAction.skipWelcome := by
      simp only [row_action]
      rw [h]
      decide
    simp [main_counts, hra]
  · intro rows hmem
    unfold written_ids at hmem
    rw [List.mem_map] at hmem
    obtain ⟨p, hp, hcl⟩ := hmem
    rw [List.mem_filter] at hp
    have hw : row_action p = RowAction.write := by simpa using hp.2
    simp only [row_action] at hw
    rw [hcl] at hw
    rw [if_neg (by decide)] at hw
    exact RowAction.noConfusion hw
  · intro pid rest h1 h2
    have hra : row_action pid = RowAction.write := by
      simp only [row_action]
      rw [if_neg (by simpa [List.isEmpty_iff] using h1), if_neg h2]
    constructor
    · simp [main_counts, hra]
    · unfold written_ids
      rw [List.mem_map]
      refine ⟨pid, ?_, rfl⟩
      rw [List.mem_filter]
      exact ⟨List.mem_cons_self pid rest, by simp [hra]⟩

/-- Witness for C9: one welcome row and one ordinary row. -/
theorem thmC9_witness :
    main_counts [("00000000_en".toList)] = (0, 1) ∧
      main_counts [("01020000_en".toList)] = (1, 0) := by
  constructor
  · have h := thmC9.1 ("00000000_en".toList) [] (by decide)
    simpa using h
  · have h := (thmC9.2.2 ("01020000_en".toList) [] (by decide) (by decide)).1
    simpa using h

theorem keyParent_base (v : FmVal) (a b : List Char) (n : Int) (h : Bool) :
    (keyParent, v) ∉
      ([(keyTitle, FmVal.s a), (keyLayout, FmVal.s b), (keyNavOrder, FmVal.i n),
        (keyHasChildren, FmVal.b h)] ++
        (if h then [(keyHasToc, FmVal.b false)] else [])) := by
  intro hm
  have h2 := List.mem_map_of_mem Prod.fst hm
  rw [List.map_append] at h2
  rcases List.mem_append.mp h2 with h3 | h3
  · simp only [List.map_cons, List.map_nil, List.mem_cons, List.not_mem_nil,
      or_false] at h3
    rcases h3 with h4 | h4 | h4 | h4 <;> exact absurd h4 (by decide)
  · cases h with
    | false => simp at h3
    | true =>
      simp only [if_true, List.map_cons, List.map_nil, List.mem_cons,
        List.not_mem_nil, or_false] at h3
      exact absurd h3 (by decide)

theorem keyGrandParent_base (v : FmVal) (a b : List Char) (n : Int) (h : Bool) :
    (keyGrandParent, v) ∉
      ([(keyTitle, FmVal.s a), (keyLayout, FmVal.s b), (keyNavOrder, FmVal.i n),
        (keyHasChildren, FmVal.b h)] ++
        (if h then [(keyHasToc, FmVal.b false)] else [])) := by
  intro hm
  have h2 := List.mem_map_of_mem Prod.fst hm
  rw [List.map_append] at h2
  rcases List.mem_append.mp h2 with h3 | h3
  · simp only [List.map_cons, List.map_nil, List.mem_cons, List.not_mem_nil,
      or_false] at h3
    rcases h3 with h4 | h4 | h4 | h4 <;> exact absurd h4 (by decide)
  · cases h with
    | false => simp at h3
    | true =>
      simp only [if_true, List.map_cons, List.map_nil, List.mem_cons,
        List.not_mem_nil, or_false] at h3
      exact absurd h3 (by decide)

/-- Claim C5 counterexample: the raw parent id can be written as the value of
the `parent` key.  When the Title Index maps the parent id `02000000_en` to
the title string `02000000_en` (a title equal to the id), the builder writes
that string — the raw identity key — as the `parent` value, contradicting the
claim that a raw identity key is never the value of any key. -/
theorem thmC5_counterexample :
    (keyParent, FmVal.s ("02000000_en".toList)) ∈
      build_frontmatter ("T".toList) ("home".toList) 1 false ("02000000_en".toList)
        [("02000000_en".toList, "02000000_en".toList)] [] := by
  decide

/-- Claim C5, amended: a `parent` (resp. `grand_parent`) entry always carries
the non-empty normalized title looked up for the parent id (resp. for the
parent's parent id); the key is omitted entirely when the parent id is empty
or the looked-up title normalizes to empty, and no entry ever carries a null
or empty value.  The raw parent id is never used as a fallback value: it can
appear as a value only when the Title Index itself maps the looked-up page to
a title equal to that id, as in the counterexample. -/
theorem thmC5 (title layout : List Char) (nav : Int) (hc : Bool) (pid : List Char)
    (tbl par : List (List Char × List Char)) :
    (∀ v, (keyParent, v) ∈ build_frontmatter title layout nav hc pid tbl par →
        v = FmVal.s (normalize_nav_title (pyGetD tbl pid [])) ∧
          (normalize_nav_title (pyGetD tbl pid [])).isEmpty = false ∧
          pid.isEmpty = false) ∧
      (∀ v, (keyGrandParent, v) ∈ build_frontmatter title layout nav hc pid tbl par →
        v = FmVal.s (normalize_nav_title
              (pyGetD tbl (clean_str (pyGetD par pid []) []) [])) ∧
          (normalize_nav_title
              (pyGetD tbl (clean_str (pyGetD par pid []) []) [])).isEmpty = false) ∧
      (pid.isEmpty = true →
        ∀ v, (keyParent, v) ∉ build_frontmatter title layout nav hc pid tbl par ∧
          (keyGrandParent, v) ∉ build_frontmatter title layout nav hc pid tbl par) ∧
      ((normalize_nav_title (pyGetD tbl pid [])).isEmpty = true →
        ∀ v, (keyParent, v) ∉ build_frontmatter title layout nav hc pid tbl par ∧
          (keyGrandParent, v) ∉ build_frontmatter title layout nav hc pid tbl par) := by
  refine ⟨?_, ?_, ?_, ?_⟩
  · intro v hv
    simp only [build_frontmatter] at hv
    rcases List.mem_append.mp hv with hv1 | hv2
    · exact absurd hv1 (keyParent_base v title layout nav hc)
    · split at hv2
      · simp at hv2
      · split at hv2
        · simp at hv2
        · rcases List.mem_cons.mp hv2 with heq | hgp
          · rename_i hpid hpt
            have hp2 : pid.isEmpty = false := by
              simpa using hpid
            have ht2 : (normalize_nav_title (pyGetD tbl pid [])).isEmpty = false := by
              simpa using hpt
            have hveq : v = FmVal.s (normalize_nav_title (pyGetD tbl pid [])) := by
              have := congrArg Prod.snd heq
              simpa using this
            exact ⟨hveq, ht2, hp2⟩
          · exfalso
            split at hgp
            · simp at hgp
            · split at hgp
              · simp at hgp
              · rcases List.mem_cons.mp hgp with heq2 | hnil
                · have := congrArg Prod.fst heq2
                  simp at this
                  exact absurd this (by decide)
                · simp at hnil
  · intro v hv
    simp only [build_frontmatter] at hv
    rcases List.mem_append.mp hv with hv1 | hv2
    · exact absurd hv1 (keyGrandParent_base v title layout nav hc)
    · split at hv2
      · simp at hv2
      · split at hv2
        · simp at hv2
        · rcases List.mem_cons.mp hv2 with heq | hgp
          · have := congrArg Prod.fst heq
            simp at this
            exact absurd this (by decide)
          · split at hgp
            · simp at hgp
            · split at hgp
              · simp at hgp
              · rcases List.mem_cons.mp hgp with heq2 | hnil
                · rename_i hgpid hgpt
                  have ht2 : (normalize_nav_title
                      (pyGetD tbl (clean_str (pyGetD par pid []) []) [])).isEmpty
                        = false := by
                    simpa using hgpt
                  have hveq : v = FmVal.s (normalize_nav_title
                      (pyGetD tbl (clean_str (pyGetD par pid []) []) [])) := by
                    have := congrArg Prod.snd heq2
                    simpa using this
                  exact ⟨hveq, ht2⟩
                · simp at hnil
  · intro hp v
    constructor
    · intro hv
      simp only [build_frontmatter] at hv
      rcases List.mem_append.mp hv with hv1 | hv2
      · exact absurd hv1 (keyParent_base v title layout nav hc)
      · rw [if_pos hp] at hv2
        simp at hv2
    · intro hv
      simp only [build_frontmatter] at hv
      rcases List.mem_append.mp hv with hv1 | hv2
      · exact absurd hv1 (keyGrandParent_base v title layout nav hc)
      · rw [if_pos hp] at hv2
        simp at hv2
  · intro hpt v
    constructor
    · intro hv
      simp only [build_frontmatter] at hv
      rcases List.mem_append.mp hv with hv1 | hv2
      · exact absurd hv1 (keyParent_base v title layout nav hc)
      · split at hv2
        · simp at hv2
        · simp at hv2
    · intro hv
      simp only [build_frontmatter] at hv
      rcases List.mem_append.mp hv with hv1 | hv2
      · exact absurd hv1 (keyGrandParent_base v title layout nav hc)
      · split at hv2
        · simp at hv2
        · simp at hv2

/-- Witness for the amended C5: a resolved parent entry carries the
normalized looked-up title. -/
theorem thmC5_witness :
    FmVal.s ("PT".toList) =
        FmVal.s (normalize_nav_title
          (pyGetD [(("p1".toList), ("PT".toList))] ("p1".toList) [])) ∧
      (normalize_nav_title
          (pyGetD [(("p1".toList), ("PT".toList))] ("p1".toList) [])).isEmpty = false ∧
      ("p1".toList).isEmpty = false := by
  have h := (thmC5 ("T".toList) ("home".toList) 1 false ("p1".toList)
      [(("p1".toList), ("PT".toList))] []).1 (FmVal.s ("PT".toList)) (by decide)
  exact h

/-- Claim C6: grandparent resolution walks exactly one hop.  If the Title
Index resolves the parent id `pB` to a title normalizing non-empty, the
Parent Index maps `pB` to a raw value whose cleaned form `pC` is non-empty,
and the Title Index resolves `pC` to a title normalizing non-empty, then the
front matter carries `parent` = the normalized title of `pB` and
`grand_parent` = the normalized title of `pC` — titles, never ids, and
nothing above `pC` is consulted (the indices are otherwise arbitrary). -/
theorem thmC6 (title layout : List Char) (nav : Int) (hc : Bool)
    (pB pCraw tB tC : List Char) (tbl par : List (List Char × List Char))
    (hB : pB.isEmpty = false)
    (htB : lookupA tbl pB = some tB)
    (htBne : (normalize_nav_title tB).isEmpty = false)
    (hpar : lookupA par pB = some pCraw)
    (hCne : (clean_str pCraw []).isEmpty = false)
    (htC : lookupA tbl (clean_str pCraw []) = some tC)
    (htCne : (normalize_nav_title tC).isEmpty = false) :
    build_frontmatter title layout nav hc pB tbl par =
      [(keyTitle, FmVal.s title), (keyLayout, FmVal.s layout),
       (keyNavOrder, FmVal.i nav), (keyHasChildren, FmVal.b hc)] ++
      (if hc then [(keyHasToc, FmVal.b false)] else []) ++
      [(keyParent, FmVal.s (normalize_nav_title tB)),
       (keyGrandParent, FmVal.s (normalize_nav_title tC))] := by
  simp [build_frontmatter, pyGetD, htB, hpar, htC, hB, htBne, hCne, htCne]

/-- Witness for C6 on concrete two-level indices. -/
theorem thmC6_witness :
    build_frontmatter ("A".toList) ("home".toList) 1 false ("b1".toList)
        [(("b1".toList), ("Btitle".toList)), (("c1".toList), ("Ctitle".toList))]
        [(("b1".toList), ("c1".toList))] =
      [(keyTitle, FmVal.s ("A".toList)), (keyLayout, FmVal.s ("home".toList)),
       (keyNavOrder, FmVal.i 1), (keyHasChildren, FmVal.b false)] ++ [] ++
      [(keyParent, FmVal.s (normalize_nav_title ("Btitle".toList))),
       (keyGrandParent, FmVal.s (normalize_nav_title ("Ctitle".toList)))] := by
  have h := thmC6 ("A".toList) ("home".toList) 1 false ("b1".toList) ("c1".toList)
      ("Btitle".toList) ("Ctitle".toList)
      [(("b1".toList), ("Btitle".toList)), (("c1".toList), ("Ctitle".toList))]
      [(("b1".toList), ("c1".toList))]
      (by decide) (by decide) (by decide) (by decide) (by decide) (by decide)
      (by decide)
  simpa using h

end GenMd
